import Mathlib

/-!
Verification of the claude-agent-app-template core components against their
natural-language specification.  Python sources are shallowly embedded:
strings become `List Char`, regular-expression substitution becomes an
explicit left-to-right scanner, the event loop and the filesystem become
explicit state, and fallible code returns `Option`/`Except`.
-/

set_option maxHeartbeats 1000000

/-- Convert a string literal to the character-list representation used
throughout this development. -/
def str (s : String) : List Char := s.data

/-! Component: Sanitizer (src/agent/sanitizer.py)

`sanitize` applies three ordered regex substitution passes:
`_RE_ANTHROPIC_KEY`, `_RE_CLAUDE_INTERNAL`, `_RE_ABS_PATH`.
The module also defines `_RE_LONG_TOKEN` (40+ char opaque runs), embedded
below as `hasLongToken`.  Each Python regex is embedded as a matcher
returning the length of the (leftmost-position, greedy) match at position
0, and `re.sub` as a scanner trying every position left to right and
skipping over replaced spans.  The scanner carries fuel (initially the
text length, which suffices because every match is nonempty) so that it is
structurally recursive and evaluates definitionally. -/

/-- Character class `[A-Za-z0-9\-_]` of `_RE_ANTHROPIC_KEY`. -/
def isKChar (c : Char) : Bool :=
  ('A' ≤ c && c ≤ 'Z') || ('a' ≤ c && c ≤ 'z') || ('0' ≤ c && c ≤ '9') ||
    c = '-' || c = '_'

/-- Character class `[^\s`"')\]}>,:;]` shared by `_RE_CLAUDE_INTERNAL` and
the path-component part of `_RE_ABS_PATH`. -/
def isCChar (c : Char) : Bool :=
  !(c.isWhitespace || c = '`' || c = '"' || c = '\'' || c = ')' ||
    c = ']' || c = '\x7d' || c = '>' || c = ',' || c = ':' || c = ';')

/-- Character class `[A-Za-z0-9+/\-_]` of `_RE_LONG_TOKEN`. -/
def isBChar (c : Char) : Bool :=
  ('A' ≤ c && c ≤ 'Z') || ('a' ≤ c && c ≤ 'z') || ('0' ≤ c && c ≤ '9') ||
    c = '+' || c = '/' || c = '-' || c = '_'

/-- Length of the maximal leading run of characters satisfying `p`. -/
def countLeading (p : Char → Bool) : List Char → Nat
  | [] => 0
  | c :: cs => if p c then countLeading p cs + 1 else 0

/-- The `re.sub` scanner with fuel: at each position try the matcher; on a
match of length `L`, emit the replacement of the matched span and resume
after it; otherwise keep the character and move one position right. -/
def reSubF (m : List Char → Option Nat) (repl : List Char → List Char) :
    Nat → List Char → List Char
  | 0, s => s
  | _ + 1, [] => []
  | fuel + 1, c :: cs =>
    match m (c :: cs) with
    | some L => repl ((c :: cs).take L) ++ reSubF m repl fuel ((c :: cs).drop L)
    | none => c :: reSubF m repl fuel cs

/-- The `re.sub` over the whole text (fuel = length suffices since every match
consumes at least one character). -/
def reSub (m : List Char → Option Nat) (repl : List Char → List Char)
    (s : List Char) : List Char :=
  reSubF m repl s.length s

/-- The literal `sk-ant-` of `_RE_ANTHROPIC_KEY`. -/
def litKey : List Char := str "sk-ant-"

/-- Match of `_RE_ANTHROPIC_KEY` (`sk-ant-[A-Za-z0-9\-_]{20,}`) at position
0: the literal followed by a greedy run of at least 20 class characters.
Returns the length of the whole match. -/
def matchKey (s : List Char) : Option Nat :=
  if litKey.isPrefixOf s then
    if 20 ≤ countLeading isKChar (s.drop 7) then
      some (7 + countLeading isKChar (s.drop 7))
    else none
  else none

/-- Replacement text for the API-key pass. -/
def replKey : List Char := str "[REDACTED_API_KEY]"

/-- The API-key substitution pass (`_RE_ANTHROPIC_KEY.sub`). -/
def subKey (s : List Char) : List Char :=
  reSub matchKey (fun _ => replKey) s

/-- The literal `.claude/projects/` of `_RE_CLAUDE_INTERNAL`. -/
def litInternal : List Char := str ".claude/projects/"

/-- Match of `_RE_CLAUDE_INTERNAL` at position 0: the literal followed by a
greedy nonempty run of allowed path characters. -/
def matchInternal (s : List Char) : Option Nat :=
  if litInternal.isPrefixOf s then
    if 1 ≤ countLeading isCChar (s.drop 17) then
      some (17 + countLeading isCChar (s.drop 17))
    else none
  else none

/-- Replacement text for the internal-path pass. -/
def replInternal : List Char := str "[internal-path]"

/-- The internal-path substitution pass (`_RE_CLAUDE_INTERNAL.sub`). -/
def subInternal (s : List Char) : List Char :=
  reSub matchInternal (fun _ => replInternal) s

/-- The seven root alternatives of `_RE_ABS_PATH`, in pattern order. -/
def absRoots : List (List Char) :=
  [str "/Users", str "/home", str "/tmp", str "/var", str "/private",
   str "/opt", str "/etc"]

/-- Match of `_RE_ABS_PATH` at position 0: one of the root literals, then
`(?:/[^...]+)+`.  Because `/` itself belongs to the component character
class, the greedy component part is exactly one `/` followed by a nonempty
maximal run of class characters. -/
def matchAbs (s : List Char) : Option Nat :=
  match (absRoots.filter (fun p => p.isPrefixOf s)).head? with
  | none => none
  | some p =>
    if (s.drop p.length).head? = some '/' then
      if 1 ≤ countLeading isCChar (s.drop (p.length + 1)) then
        some (p.length + 1 + countLeading isCChar (s.drop (p.length + 1)))
      else none
    else none

/-- The `_redact_abs_path`: project-relative suffix, `~`-relative form, or the
generic redacted marker, per the source. -/
def redactAbs (root home path : List Char) : List Char :=
  if (root ++ [ '/' ]).isPrefixOf path then path.drop (root.length + 1)
  else if home.isPrefixOf path then '~' :: path.drop home.length
  else str "[redacted-path]"

/-- The absolute-path substitution pass (`_RE_ABS_PATH.sub`), parametrized
by the process working directory `root` and the home directory `home`. -/
def subAbs (root home : List Char) (s : List Char) : List Char :=
  reSub matchAbs (redactAbs root home) s

/-- The `sanitize(text)`: the three substitution passes in source order. -/
def sanitize (root home : List Char) (text : List Char) : List Char :=
  subAbs root home (subInternal (subKey text))

/-- Match of `_RE_LONG_TOKEN`
(`(?<![A-Za-z0-9/])[A-Za-z0-9+/\-_]{40,}(?:={0,2})(?![A-Za-z0-9/])`) at
position 0, given whether the preceding character (if any) satisfies the
look-behind.  Checks the 40+ run, up to two `=`, and the look-ahead. -/
def matchLongTokenHere (prevOk : Bool) (s : List Char) : Bool :=
  if !prevOk then false
  else
    if countLeading isBChar s < 40 then false
    else
      match (s.drop (countLeading isBChar s)).drop
          (min 2 (countLeading (fun c => c = '=') (s.drop (countLeading isBChar s)))) with
      | [] => true
      | c :: _ => !(('A' ≤ c && c ≤ 'Z') || ('a' ≤ c && c ≤ 'z') ||
          ('0' ≤ c && c ≤ '9') || c = '/')

/-- Whether `_RE_LONG_TOKEN` matches anywhere in the text. -/
def hasLongToken : List Char → Bool :=
  go true
where
  go (prevOk : Bool) : List Char → Bool
    | [] => false
    | c :: cs =>
      matchLongTokenHere prevOk (c :: cs) ||
        go (!(('A' ≤ c && c ≤ 'Z') || ('a' ≤ c && c ≤ 'z') ||
          ('0' ≤ c && c ≤ '9') || c = '/')) cs

/-- The input of the repository's own test `test_redacts_long_token`. -/
def c1Input : List Char := str "token=ABCDEFGHIJKLMNOPQRSTUVWXYZ1234567890abcd"

/-- C1: the spec says a generic pass redacts every 40+ character opaque
alphanumeric/base64-shaped run.  The source defines `_RE_LONG_TOKEN` but
`sanitize` never applies it: on the repository's own test input (whose test
expects `[REDACTED_TOKEN]` in the output), `sanitize` is the identity and
its output still contains a 40+ character run matching `_RE_LONG_TOKEN`. -/
theorem C1_long_token_pass_missing :
    ∀ root home : List Char,
      sanitize root home c1Input = c1Input ∧ hasLongToken c1Input = true := by
  intro root home
  exact ⟨rfl, rfl⟩

/-! Component: AsyncBridge (src/agent/async_bridge.py)

The bridge owns one event loop.  For the claims at issue the relevant
state is whether that loop is closed; `run` and `shutdown` are embedded as
transitions on that state.  `run` mirrors the source exactly: if the loop
is closed it *recreates* a fresh loop and then executes the coroutine on
it; it never raises a closed-scheduler error.  `shutdown` closes the loop
(the loop is never running at the call sites modelled, matching the
source's `is_running()` guards). -/

structure BridgeState where
  closed : Bool
deriving DecidableEq

/-- Result of `AsyncBridge.run`: either the coroutine's value or an error
raised instead of executing it. -/
inductive RunOutcome (α : Type) where
  | ok (value : α)
  | closedError
deriving DecidableEq

/-- The `AsyncBridge.__init__`: a fresh open loop. -/
def bridgeInit : BridgeState := ⟨false⟩

/-- The `AsyncBridge.run`: if the loop is closed, recreate it, then run the
coroutine to completion and return its value. -/
def bridgeRun (s : BridgeState) (value : α) : BridgeState × RunOutcome α :=
  if s.closed then (⟨false⟩, .ok value)
  else (s, .ok value)

/-- The `AsyncBridge.shutdown`: cancel pending work and close the loop; no-op
when already closed. -/
def bridgeShutdown (s : BridgeState) : BridgeState :=
  if s.closed then s else ⟨true⟩

/-- The `AsyncBridge.is_alive`. -/
def bridgeIsAlive (s : BridgeState) : Bool := !s.closed

/-- C2: the spec says `run` fails with `ClosedSchedulerError` after
`shutdown()`, and the repository's own test
`test_run_after_shutdown_raises_runtime_error` expects `run` to raise.
The source instead recreates the closed loop and executes the coroutine:
after `shutdown`, `run` returns the operation's value, never a
closed-scheduler error. -/
theorem C2_run_after_shutdown_executes :
    ∀ (s : BridgeState) (value : α),
      (bridgeRun (bridgeShutdown s) value).2 = RunOutcome.ok value ∧
        (bridgeRun (bridgeShutdown s) value).2 ≠ RunOutcome.closedError := by
  intro s value
  constructor
  · unfold bridgeRun bridgeShutdown
    by_cases h : s.closed <;> simp [h]
  · unfold bridgeRun bridgeShutdown
    by_cases h : s.closed <;> simp [h]

/-! Component: PromptContextBuilder (src/agent/context_builder.py)

`build()` works over the user message, the configured `max_chars`, and the
list of sections accumulated by the `add_*` calls; it is embedded as a
pure function of those three values. -/

/-- Python `str.strip()` (both ends, whitespace). -/
def pyStrip (s : List Char) : List Char :=
  (s.dropWhile Char.isWhitespace).reverse.dropWhile Char.isWhitespace |>.reverse

/-- The `[USER_MESSAGE]` section header. -/
def userHeader : List Char := str "[USER_MESSAGE]\n"

/-- The `user_section = f"[USER_MESSAGE]\n{self._user_message.strip()}"`. -/
def userSection (msg : List Char) : List Char := userHeader ++ pyStrip msg

/-- The fixed truncation marker `"...[context truncated]"`. -/
def ctxTruncationMark : List Char := str "...[context truncated]"

/-- The per-section body of `build()`'s for-loop: truncate a section to
the remaining budget, appending the truncation marker when cut. -/
def fitSection (remaining : Int) (section' : List Char) : List Char :=
  if remaining < (section'.length : Int) then
    if remaining ≤ (ctxTruncationMark.length : Int) then
      ctxTruncationMark.take remaining.toNat
    else
      section'.take (remaining - ctxTruncationMark.length).toNat ++ ctxTruncationMark
  else section'

/-- The `build()`'s for-loop: accumulate fitted sections while budget remains,
each fitted section costing its length plus the 2-character separator. -/
def buildLoop : List (List Char) → Int → List (List Char)
  | [], _ => []
  | s :: rest, remaining =>
    if remaining ≤ 0 then []
    else
      fitSection remaining s ::
        buildLoop rest (remaining - (fitSection remaining s).length - 2)

/-- The `"\n\n".join([*context_sections, user_section])`. -/
def joinCtx (ctx : List (List Char)) (user : List Char) : List Char :=
  ctx.foldr (fun c acc => c ++ str "\n\n" ++ acc) user

/-- The `PromptContextBuilder.build()`. -/
def build (msg : List Char) (maxChars : Nat) (sections : List (List Char)) :
    List Char :=
  if (maxChars : Int) ≤ (userSection msg).length then (userSection msg).take maxChars
  else if sections = [] then userSection msg
  else
    if (maxChars : Int) - (userSection msg).length - 2 ≤ 0 then userSection msg
    else
      match buildLoop sections ((maxChars : Int) - (userSection msg).length - 2) with
      | [] => userSection msg
      | ctx => joinCtx ctx (userSection msg)

theorem fitSection_length_le (remaining : Int) (s : List Char) (h : 0 < remaining) :
    (fitSection remaining s).length ≤ remaining.toNat := by
  have hms : ctxTruncationMark.length = 22 := by decide
  unfold fitSection
  split
  · split
    · rename_i h1 h2
      rw [hms] at h2
      simp only [List.length_take, hms]
      omega
    · rename_i h1 h2
      rw [hms] at h2
      simp only [List.length_append, List.length_take, hms]
      omega
  · rename_i h1
    omega

/-- When the budget is exhausted the loop adds nothing. -/
theorem buildLoop_nonpos (ss : List (List Char)) (remaining : Int)
    (h : remaining ≤ 0) : buildLoop ss remaining = [] := by
  cases ss with
  | nil => rfl
  | cons s rest => unfold buildLoop; simp [h]

/-- Total joined cost of the loop's output: the sum of section lengths
plus 2 separator characters per section is at most `remaining + 2`. -/
theorem buildLoop_cost (ss : List (List Char)) :
    ∀ remaining : Int, 0 < remaining →
      ((buildLoop ss remaining).map (fun c => c.length + 2)).sum ≤
        remaining.toNat + 2 := by
  induction ss with
  | nil => intro remaining _; simp [buildLoop]
  | cons s rest ih =>
    intro remaining hpos
    unfold buildLoop
    split
    · omega
    · simp only [List.map_cons, List.sum_cons]
      have hfit := fitSection_length_le remaining s hpos
      by_cases hr : remaining - (fitSection remaining s).length - 2 ≤ 0
      · rw [buildLoop_nonpos rest _ hr]
        simp only [List.map_nil, List.sum_nil, Nat.add_zero]
        omega
      · have hrec := ih (remaining - (fitSection remaining s).length - 2) (by omega)
        omega

theorem joinCtx_length (ctx : List (List Char)) (user : List Char) :
    (joinCtx ctx user).length =
      (ctx.map (fun c => c.length + 2)).sum + user.length := by
  induction ctx with
  | nil => simp [joinCtx]
  | cons c rest ih =>
    simp only [joinCtx, List.foldr_cons, List.length_append, List.map_cons,
      List.sum_cons] at *
    rw [ih]
    have hsep : (str "\n\n").length = 2 := by decide
    omega

/-- C3: `build()` output never exceeds `max_chars`; and whenever the user
section alone is at least `max_chars` long, the output is exactly the
first `max_chars` characters of that section, all other sections
dropped. -/
theorem C3_build_bounded_and_truncates :
    ∀ (msg : List Char) (maxChars : Nat) (sections : List (List Char)),
      (build msg maxChars sections).length ≤ maxChars ∧
      (maxChars ≤ (userSection msg).length →
        build msg maxChars sections = (userSection msg).take maxChars) := by
  intro msg maxChars sections
  constructor
  · unfold build
    split
    · simp only [List.length_take]
      exact Nat.min_le_left _ _
    · rename_i hbig
      have hu : (userSection msg).length < maxChars := by omega
      split
      · omega
      · split
        · omega
        · rename_i hsec hrem
          split
          · omega
          · have hcost := buildLoop_cost sections
              ((maxChars : Int) - (userSection msg).length - 2) (by omega)
            rw [joinCtx_length]
            omega
  · intro h
    unfold build
    split
    · rfl
    · rename_i hbig
      exact absurd (by exact_mod_cast h) hbig

/-- Witness for C3 at a concrete input: `max_chars = 10` is below the
user-section length, so `build` returns exactly the first 10 characters. -/
theorem C3_build_bounded_and_truncates_witness :
    (build (str "hello world") 10 [str "[KNOWLEDGE]\nsome facts"]).length ≤ 10 ∧
      build (str "hello world") 10 [str "[KNOWLEDGE]\nsome facts"] =
        (userSection (str "hello world")).take 10 :=
  ⟨(C3_build_bounded_and_truncates (str "hello world") 10
      [str "[KNOWLEDGE]\nsome facts"]).1,
   (C3_build_bounded_and_truncates (str "hello world") 10
      [str "[KNOWLEDGE]\nsome facts"]).2 (by decide)⟩

/-! Component: ClaudeChatAgent (src/agent/client.py)

`StreamChunk` is the normalized payload type.  `send_message_streaming`
wraps `_stream_once` in a bounded retry loop; one attempt of the
query/stream cycle is abstracted as the list of chunks it yielded before
either finishing normally or raising an exception (carried as the
exception's message string). -/

/-- The `type` tag of a `StreamChunk`. -/
inductive ChunkType where
  | text_delta | text | tool_use | tool_result | error | done
deriving DecidableEq

/-- Normalized stream payload consumed by the UI. -/
structure StreamChunk where
  ctype : ChunkType
  content : String
deriving DecidableEq

/-- One query/stream attempt: the chunks yielded before the attempt either
returned normally (`failure = none`) or raised (`failure = some message`). -/
structure AttemptOutcome where
  chunks : List StreamChunk
  failure : Option String

/-- The final error message after retry exhaustion:
`"Request failed after N attempt(s)."` plus, when an exception was
recorded, a space and its message. -/
def exhaustMessage (maxRetries : Nat) (lastError : Option String) : String :=
  match lastError with
  | none => "Request failed after " ++ Nat.repr (maxRetries + 1) ++ " attempt(s)."
  | some e => "Request failed after " ++ Nat.repr (maxRetries + 1) ++ " attempt(s)." ++ " " ++ e

/-- The retry loop of `send_message_streaming`: run attempts in order,
yielding each attempt's chunks; stop after a successful attempt; after
exhausting `max_retries + 1` attempts, yield the single error chunk. -/
def smsLoop (maxRetries : Nat) (attempts : Nat → AttemptOutcome) :
    Nat → Nat → Option String → List StreamChunk
  | 0, _, lastError => [⟨ChunkType.error, exhaustMessage maxRetries lastError⟩]
  | fuel + 1, i, _lastError =>
    match (attempts i).failure with
    | none => (attempts i).chunks
    | some e => (attempts i).chunks ++ smsLoop maxRetries attempts fuel (i + 1) (some e)

/-- The `send_message_streaming`, as the chunk sequence delivered to the
caller across all attempts. -/
def sendMessageStreaming (maxRetries : Nat) (attempts : Nat → AttemptOutcome) :
    List StreamChunk :=
  smsLoop maxRetries attempts (maxRetries + 1) 0 none

theorem smsLoop_all_fail (maxRetries : Nat) (attempts : Nat → AttemptOutcome)
    (errs : Nat → String) :
    ∀ (fuel i : Nat) (lastError : Option String), 0 < fuel →
      (∀ k, k < fuel → attempts (i + k) = ⟨[], some (errs (i + k))⟩) →
      smsLoop maxRetries attempts fuel i lastError =
        [⟨ChunkType.error, exhaustMessage maxRetries (some (errs (i + fuel - 1)))⟩] := by
  intro fuel
  induction fuel with
  | zero => intro i lastError h; omega
  | succ fuel ih =>
    intro i lastError _ hall
    have h0 : attempts (i + 0) = ⟨[], some (errs (i + 0))⟩ := hall 0 (by omega)
    simp only [Nat.add_zero] at h0
    unfold smsLoop
    rw [h0]
    simp only [List.nil_append]
    cases fuel with
    | zero => simp [smsLoop]
    | succ fuel' =>
      rw [ih (i + 1) (some (errs i)) (by omega)
        (fun k hk => by
          have := hall (k + 1) (by omega)
          simpa [Nat.add_assoc, Nat.add_comm 1 k] using this)]
      have e1 : i + 1 + (fuel' + 1) - 1 = i + (fuel' + 1 + 1) - 1 := by omega
      rw [e1]

/-- C4: when every query/stream attempt fails at the query stage (raising
an exception after yielding no chunks), `send_message_streaming` yields
exactly one chunk, of type `error`, whose content is
`"Request failed after N attempt(s)."` (with `N = max_retries + 1`)
followed by a space and the last attempt's exception message, and the
stream ends without propagating any exception. -/
theorem C4_retry_exhaustion_single_error_chunk
    (maxRetries : Nat) (attempts : Nat → AttemptOutcome) (errs : Nat → String)
    (hfail : ∀ i, i ≤ maxRetries → attempts i = ⟨[], some (errs i)⟩) :
    sendMessageStreaming maxRetries attempts =
      [⟨ChunkType.error,
        "Request failed after " ++ Nat.repr (maxRetries + 1) ++ " attempt(s)." ++
          " " ++ errs maxRetries⟩] := by
  unfold sendMessageStreaming
  rw [smsLoop_all_fail maxRetries attempts errs (maxRetries + 1) 0 none (by omega)
    (fun k hk => by simpa using hfail k (by omega))]
  have hidx : 0 + (maxRetries + 1) - 1 = maxRetries := by omega
  rw [hidx]
  rfl

/-- Witness for C4: two attempts (`max_retries = 1`) that always raise
`"boom"` produce the single error chunk
`"Request failed after 2 attempt(s). boom"`. -/
theorem C4_retry_exhaustion_single_error_chunk_witness :
    sendMessageStreaming 1 (fun _ => ⟨[], some "boom"⟩) =
      [⟨ChunkType.error, "Request failed after 2 attempt(s)." ++ " " ++ "boom"⟩] := by
  have h := C4_retry_exhaustion_single_error_chunk 1 (fun _ => ⟨[], some "boom"⟩)
    (fun _ => "boom") (fun i _ => rfl)
  simpa using h

/-! Component: `_stream_once` normalization (src/agent/client.py, lines 115-176)

The upstream message shapes are embedded as a tagged union carrying the
fields the handler reads (`dict.get` defaults already applied for stream
events).  `emitted_delta` is threaded through the fold. -/

/-- A partial-message stream event, with the fields `_stream_once` reads:
`event.get("type", "")`, `event.get("delta", {}).get("type")`,
`event.get("delta", {}).get("text", "")`,
`event.get("content_block", {}).get("type")`,
`event.get("content_block", {}).get("name", "unknown")`. -/
structure SEvent where
  etype : String := ""
  deltaType : Option String := none
  deltaText : String := ""
  blockType : Option String := none
  blockName : String := "unknown"

/-- A block of an `AssistantMessage`. -/
inductive ABlock where
  | textB (text : String)
  | toolUseB (name : String)
  | otherB

/-- A block of a `UserMessage` whose content is a list: a
`ToolResultBlock` (with `content` and `is_error`, both optional) or any
other block. -/
inductive UBlock where
  | toolResultB (content : Option String) (isError : Option Bool)
  | otherB

/-- An upstream message, as discriminated by `_stream_once`. -/
inductive SDKMessage where
  | streamEvent (ev : SEvent)
  | assistant (content : List ABlock)
  | userStr (content : String)
  | userList (content : List UBlock)
  | result (isError : Bool) (result : Option String) (subtype : String)
      (sessionId : String)
  | system (subtype : String)
  | unknown

/-- Python `message.result or "Unknown error"`. -/
def pyOrUnknown : Option String → String
  | none => "Unknown error"
  | some s => if s = "" then "Unknown error" else s

/-- Handle one upstream message: returns the updated `emitted_delta` flag
and the chunks yielded, translated clause by clause from the source. -/
def handleMessage (emitted : Bool) : SDKMessage → Bool × List StreamChunk
  | .streamEvent ev =>
    if ev.etype = "content_block_delta" then
      if ev.deltaType = some "text_delta" then
        if ev.deltaText ≠ "" then (true, [⟨ChunkType.text_delta, ev.deltaText⟩])
        else (emitted, [])
      else (emitted, [])
    else if ev.etype = "content_block_start" then
      if ev.blockType = some "tool_use" then (emitted, [⟨ChunkType.tool_use, ev.blockName⟩])
      else (emitted, [])
    else (emitted, [])
  | .assistant content =>
    (emitted,
      content.filterMap fun b =>
        match b with
        | .textB t => if t ≠ "" ∧ ¬emitted then some ⟨ChunkType.text, t⟩ else none
        | .toolUseB n => some ⟨ChunkType.tool_use, n⟩
        | .otherB => none)
  | .userStr _ => (emitted, [])
  | .userList content =>
    (emitted,
      content.filterMap fun b =>
        match b with
        | .toolResultB _ isError =>
          some ⟨ChunkType.tool_result, if isError.getD false then "error" else "success"⟩
        | .otherB => none)
  | .result isError result _ sessionId =>
    (emitted,
      [if isError then ⟨ChunkType.error, pyOrUnknown result⟩
       else ⟨ChunkType.done, sessionId⟩])
  | .system _ => (emitted, [])
  | .unknown => (emitted, [])

/-- The chunk sequence of one query/stream cycle over a received message
list (the pure normalization core of `_stream_once`). -/
def streamOnce (msgs : List SDKMessage) : List StreamChunk :=
  go false msgs
where
  go (emitted : Bool) : List SDKMessage → List StreamChunk
    | [] => []
    | m :: rest =>
      (handleMessage emitted m).2 ++ go (handleMessage emitted m).1 rest

/-- C5: the spec (and the repository's own tests
`test_error_result_message_yields_error_chunk` and
`test_tool_result_error_detail_is_propagated_to_final_error`) require
`tool_result` chunks to carry `"error: <detail>"` and failing terminal
results to carry `"<message> | subtype=<subtype>"` with a
`" | tool=<detail>"` suffix.  The source instead emits the bare string
`"error"` and `message.result or "Unknown error"`: on the exact stream of
the latter test, the normalized chunks carry no detail, no subtype and no
tool suffix. -/
theorem C5_chunk_detail_formats_missing :
    streamOnce
      [SDKMessage.userList
        [UBlock.toolResultB (some "AxiosError: Request failed with status code 403")
          (some true)],
       SDKMessage.result true (some "") "result_error" "session-1"] =
      [⟨ChunkType.tool_result, "error"⟩, ⟨ChunkType.error, "Unknown error"⟩] := by
  rfl

/-! Component: Rate limiter (src/app.py, `_consume_rate_limit`)

Instants are embedded as rationals.  Python `int()` truncates toward
zero, embedded as `pyInt` via `Int.tdiv` on the reduced fraction. -/

/-- Python `int()` applied to a rational: truncation toward zero. -/
def pyInt (q : ℚ) : Int := Int.tdiv q.num q.den

/-- Executable floor of a rational (`Int./` is Euclidean division, which
floors for the positive denominator). -/
def ratFloor (q : ℚ) : Int := q.num / q.den

/-- Executable ceiling of a rational. -/
def ratCeil (q : ℚ) : Int := -ratFloor (-q)

/-- The `ratCeil` agrees with the mathematical ceiling. -/
theorem ratCeil_eq (q : ℚ) : ratCeil q = ⌈q⌉ := by
  unfold ratCeil ratFloor
  rw [← Rat.floor_def]
  have h := Int.ceil_neg (a := -q)
  simp only [neg_neg] at h
  omega

/-- The `_consume_rate_limit`: filter to the window, then either block with a
retry hint or admit `now`.  `recent[0]` on an empty list raises
(`none`). -/
def consumeRateLimit (now : ℚ) (timestamps : List ℚ) (limit : Nat)
    (window : ℚ) : Option (List ℚ × Bool × Int) :=
  let recent := timestamps.filter (fun ts => now - ts < window)
  if limit ≤ recent.length then
    match recent with
    | [] => none
    | old :: _ => some (recent, true, max 1 (pyInt (window - (now - old))))
  else some (recent ++ [now], false, 0)

/-- The spec-side contract of the rate limiter, parametrized by the
rounding used in the retry-hint formula
`max(1, round(window - (now - oldest_in_window)))`. -/
def consumeRateLimitSpec (rounding : ℚ → Int) (now : ℚ) (timestamps : List ℚ)
    (limit : Nat) (window : ℚ) : Option (List ℚ × Bool × Int) :=
  let recent := timestamps.filter (fun ts => now - ts < window)
  if limit ≤ recent.length then
    recent.head?.map fun oldest =>
      (recent, true, max 1 (rounding (window - (now - oldest))))
  else some (recent ++ [now], false, 0)

/-- The claim's contract: retry hint computed with `ceil`. -/
def consumeClaimCeil (now : ℚ) (timestamps : List ℚ) (limit : Nat)
    (window : ℚ) : Option (List ℚ × Bool × Int) :=
  consumeRateLimitSpec ratCeil now timestamps limit window

/-- The amended contract: retry hint computed with Python `int()`
truncation. -/
def consumeAmendedTrunc (now : ℚ) (timestamps : List ℚ) (limit : Nat)
    (window : ℚ) : Option (List ℚ × Bool × Int) :=
  consumeRateLimitSpec pyInt now timestamps limit window

unseal Rat.sub Rat.mul Rat.add Rat.inv in
/-- C6 counterexample: with `now = 30`, one timestamp `1/2` inside the
60-second window and `limit = 1`, the code returns
`retry_after = int(60 - 29.5) = 30` while the claim's ceiling formula
gives `31`. -/
theorem C6_retry_after_ceil_counterexample :
    consumeRateLimit 30 [1/2] 1 60 = some ([1/2], true, 30) ∧
      consumeClaimCeil 30 [1/2] 1 60 = some ([1/2], true, 31) ∧
      consumeRateLimit 30 [1/2] 1 60 ≠ consumeClaimCeil 30 [1/2] 1 60 := by
  refine ⟨by decide, by decide, by decide⟩

/-- C6 amended: `_consume_rate_limit` satisfies the claim's contract with
`ceil` replaced by Python `int()` truncation (the filtered list unchanged
and blocked when the in-window count reaches `limit`, with
`retry_after = max(1, int(window - (now - oldest_in_window)))`; otherwise
`now` appended, unblocked, `retry_after = 0`). -/
theorem C6_consume_rate_limit_amended :
    ∀ (now : ℚ) (timestamps : List ℚ) (limit : Nat) (window : ℚ),
      consumeRateLimit now timestamps limit window =
        consumeAmendedTrunc now timestamps limit window := by
  intro now timestamps limit window
  unfold consumeRateLimit consumeAmendedTrunc consumeRateLimitSpec
  cases hf : timestamps.filter (fun ts => now - ts < window) with
  | nil => by_cases hl : limit ≤ 0 <;> simp [hf, hl]
  | cons old rest =>
    by_cases hl : limit ≤ (old :: rest).length <;> simp [hf, hl]

/-! Component: Knowledge directory resolution (src/agent/knowledge.py,
`resolve_knowledge_dir`; src/agent/path_utils.py, `is_within`)

Filesystem paths are embedded lexically as absolute component lists
(`pathlib.Path.resolve` without symlinks): `resolve` folds components,
`..` dropping the last accumulated component and `.` being skipped.
`is_within(path, root)` is `path == root or root in path.parents`, with
`path.parents` the proper prefixes of the component list. -/

/-- One step of lexical `Path.resolve`. -/
def resolveStep (acc : List String) (c : String) : List String :=
  if c = ".." then acc.dropLast else if c = "." then acc else acc ++ [c]

/-- Lexical `Path.resolve` on an absolute component list. -/
def resolveComps (l : List String) : List String := l.foldl resolveStep []

/-- The `Path.parents` as component lists: all proper ancestor prefixes, down
to the filesystem root `[]`. -/
def pathParents (p : List String) : List (List String) :=
  (List.range p.length).map fun k => p.take k

/-- The `is_within(path, root)` from path_utils.py. -/
def isWithin (p root : List String) : Bool :=
  decide (p = root) || decide (root ∈ pathParents p)

/-- The configuration error message of `resolve_knowledge_dir`. -/
def knowledgeErrMsg : String := "Knowledge directory must be inside the project root."

/-- A configured path: absolute flag plus components. -/
structure ConfPath where
  absolute : Bool
  comps : List String

/-- The `resolve_knowledge_dir(project_root, knowledge_dir)`. -/
def resolveKnowledgeDir (projectRoot : List String) (knowledgeDir : ConfPath) :
    Except String (List String) :=
  let root := resolveComps projectRoot
  let candidate := if knowledgeDir.absolute then knowledgeDir.comps
    else root ++ knowledgeDir.comps
  let resolved := resolveComps candidate
  if !(isWithin resolved root) then Except.error knowledgeErrMsg
  else Except.ok resolved

/-- C8 counterexample: for the project root `/outside`, resolving the
configured directory `../outside` yields `/outside` itself, which *is*
within the root, so no configuration error is raised — refuting "for
every project root path". -/
theorem C8_outside_counterexample :
    resolveKnowledgeDir ["outside"] ⟨false, ["..", "outside"]⟩ =
      Except.ok ["outside"] := by
  rfl

theorem resolveComps_clean (l : List String) :
    ∀ c ∈ resolveComps l, c ≠ ".." ∧ c ≠ "." := by
  suffices h : ∀ acc, (∀ c ∈ acc, c ≠ ".." ∧ c ≠ ".") →
      ∀ c ∈ l.foldl resolveStep acc, c ≠ ".." ∧ c ≠ "." by
    exact h [] (by simp)
  induction l with
  | nil => intro acc hacc; simpa using hacc
  | cons d rest ih =>
    intro acc hacc
    simp only [List.foldl_cons]
    apply ih
    unfold resolveStep
    split
    · intro c hc
      exact hacc c (List.dropLast_subset _ hc)
    · split
      · exact hacc
      · intro c hc
        rcases List.mem_append.mp hc with h | h
        · exact hacc c h
        · rename_i h1 h2
          simp only [List.mem_singleton] at h
          subst h
          exact ⟨h1, h2⟩

theorem foldl_resolveStep_clean (l : List String)
    (h : ∀ c ∈ l, c ≠ ".." ∧ c ≠ ".") :
    ∀ acc, l.foldl resolveStep acc = acc ++ l := by
  induction l with
  | nil => intro acc; simp
  | cons d rest ih =>
    intro acc
    have hd := h d (by simp)
    have hstep : resolveStep acc d = acc ++ [d] := by
      unfold resolveStep
      rw [if_neg hd.1, if_neg hd.2]
    simp only [List.foldl_cons, hstep]
    rw [ih (fun c hc => h c (by simp [hc]))]
    simp

/-- C8 amended: `resolve_knowledge_dir(root, "../outside")` raises the
configuration error for every project root that is not the filesystem
root and whose final component is not itself `outside` (for those two
families the resolved candidate lands inside the root and is accepted). -/
theorem C8_traversal_rejected_amended (projectRoot : List String)
    (hne : resolveComps projectRoot ≠ [])
    (hlast : (resolveComps projectRoot).getLast? ≠ some "outside") :
    resolveKnowledgeDir projectRoot ⟨false, ["..", "outside"]⟩ =
      Except.error knowledgeErrMsg := by
  have hclean := resolveComps_clean projectRoot
  have hid : List.foldl resolveStep [] (resolveComps projectRoot) =
      resolveComps projectRoot := by
    have h2 := foldl_resolveStep_clean (resolveComps projectRoot) hclean []
    simpa using h2
  have hres : resolveComps (resolveComps projectRoot ++ ["..", "outside"]) =
      (resolveComps projectRoot).dropLast ++ ["outside"] := by
    show (resolveComps projectRoot ++ ["..", "outside"]).foldl resolveStep [] = _
    rw [List.foldl_append, hid]
    simp [resolveStep]
  have hneq : (resolveComps projectRoot).dropLast ++ ["outside"] ≠
      resolveComps projectRoot := by
    intro heq
    apply hlast
    rw [← heq]
    simp [List.getLast?_concat]
  have hnotin : resolveComps projectRoot ∉
      pathParents ((resolveComps projectRoot).dropLast ++ ["outside"]) := by
    intro hmem
    unfold pathParents at hmem
    simp only [List.mem_map, List.mem_range] at hmem
    obtain ⟨k, hk, heq⟩ := hmem
    have hlen0 : 0 < (resolveComps projectRoot).length := List.length_pos.mpr hne
    have hl := congrArg List.length heq
    simp only [List.length_take, List.length_append, List.length_dropLast,
      List.length_singleton] at hl hk
    omega
  have hw : isWithin ((resolveComps projectRoot).dropLast ++ ["outside"])
      (resolveComps projectRoot) = false := by
    unfold isWithin
    simp only [Bool.or_eq_false_iff, decide_eq_false_iff_not]
    exact ⟨hneq, hnotin⟩
  unfold resolveKnowledgeDir
  simp [hres, hw]

/-- Witness for C8 amended at the concrete root `/srv/proj`. -/
theorem C8_traversal_rejected_amended_witness :
    resolveKnowledgeDir ["srv", "proj"] ⟨false, ["..", "outside"]⟩ =
      Except.error knowledgeErrMsg :=
  C8_traversal_rejected_amended ["srv", "proj"] (by decide) (by decide)

/-! Component: Knowledge search pattern (src/agent/knowledge.py,
`build_knowledge_pattern` / `_to_rg_pattern_term`)

`str.lower` is embedded as per-character ASCII lowering (`Char.toLower`),
which agrees with Python on every ASCII string; the stopword comparison is
guarded by `isascii()` in the source, so only ASCII strings reach it. -/

/-- The punctuation set stripped from token ends:  ``` `'".,!?():;[]{} ```. -/
def punctSet : List Char :=
  ['`', '\'', '"', '.', ',', '!', '?', '(', ')', ':', ';', '[', ']', '\x7b', '\x7d']

/-- Python `str.strip(chars)`: remove set members from both ends. -/
def stripChars (set : List Char) (l : List Char) : List Char :=
  ((l.dropWhile set.contains).reverse.dropWhile set.contains).reverse

/-- The `token.strip().strip("`'\".,!?():;[]{}")`. -/
def normTok (tok : List Char) : List Char := stripChars punctSet (pyStrip tok)

/-- Python `str.lower` (ASCII). -/
def lowerL (l : List Char) : List Char := l.map Char.toLower

/-- Python `str.isascii`. -/
def isAsciiL (l : List Char) : Bool := l.all fun c => c.toNat < 128

/-- The `_EN_STOPWORDS` set, in source order. -/
def stopwords : List (List Char) :=
  [str "a", str "an", str "and", str "at", str "by", str "can", str "could",
   str "did", str "do", str "does", str "for", str "how", str "i", str "in",
   str "is", str "it", str "of", str "on", str "or", str "the", str "this",
   str "to", str "we", str "what", str "when", str "where", str "who",
   str "why", str "with", str "would", str "you"]

/-- The `normalized.isascii() and lowered in _EN_STOPWORDS`. -/
def stopCondB (n : List Char) : Bool :=
  isAsciiL n && stopwords.contains (lowerL n)

/-- The `len(normalized) < 2 and len(query.strip()) > 2 and normalized.isascii()`. -/
def shortCondB (q n : List Char) : Bool :=
  decide (n.length < 2) && decide (2 < (pyStrip q).length) && isAsciiL n

/-- Split on whitespace runs (`re.split(r"\s+", ...)` on a stripped
string, empty tokens dropped). -/
def splitWsAux : List Char → List Char → List (List Char)
  | [], cur => if cur.isEmpty then [] else [cur.reverse]
  | c :: cs, cur =>
    if c.isWhitespace then
      if cur.isEmpty then splitWsAux cs [] else cur.reverse :: splitWsAux cs []
    else splitWsAux cs (c :: cur)

/-- Whitespace tokenization of the stripped query. -/
def splitWs (s : List Char) : List (List Char) := splitWsAux s []

/-- The characters escaped by Python `re.escape`. -/
def reSpecialSet : List Char :=
  ['(', ')', '[', ']', '\x7b', '\x7d', '?', '*', '+', '-', '|', '^', '$',
   '\\', '.', '&', '~', '#', ' ', '\t', '\n', '\r', '\x0b', '\x0c']

/-- Python `re.escape`. -/
def reEscape (l : List Char) : List Char :=
  (l.map fun c => if reSpecialSet.contains c then ['\\', c] else [c]).flatten

/-- The `re.fullmatch(r"[A-Za-z0-9_]+", term)`: nonempty and word chars only. -/
def isWordTerm (l : List Char) : Bool :=
  !l.isEmpty && l.all fun c =>
    ('A' ≤ c && c ≤ 'Z') || ('a' ≤ c && c ≤ 'z') || ('0' ≤ c && c ≤ '9') || c = '_'

/-- The `_to_rg_pattern_term`: word-bound alphanumeric/underscore ASCII terms,
bare-escape others. -/
def toRgTerm (term : List Char) : List Char :=
  if isAsciiL term && isWordTerm term then
    str "\\b" ++ reEscape term ++ str "\\b"
  else reEscape term

/-- The term-collection loop of `build_knowledge_pattern`, with the seen
set (of lowered terms) and collected terms as accumulators. -/
def bkpLoop (q : List Char) : List (List Char) → List (List Char) →
    List (List Char) → List (List Char)
  | [], _, terms => terms
  | tok :: rest, seen, terms =>
    if (normTok tok).isEmpty then bkpLoop q rest seen terms
    else if stopCondB (normTok tok) then bkpLoop q rest seen terms
    else if shortCondB q (normTok tok) then bkpLoop q rest seen terms
    else if seen.contains (lowerL (normTok tok)) then bkpLoop q rest seen terms
    else if 4 ≤ (terms ++ [normTok tok]).length then terms ++ [normTok tok]
    else bkpLoop q rest (seen ++ [lowerL (normTok tok)]) (terms ++ [normTok tok])

/-- The `build_knowledge_pattern(query)`. -/
def buildKnowledgePattern (q : List Char) : List Char :=
  let terms := bkpLoop q (splitWs (pyStrip q)) [] []
  let terms := if terms.isEmpty && !(pyStrip q).isEmpty then [pyStrip q] else terms
  List.intercalate ['|'] (terms.map toRgTerm)

/-- Case-insensitive first-wins deduplication, seeded with an already-seen
set of lowered terms. -/
def dedupFrom (seen : List (List Char)) : List (List Char) → List (List Char)
  | [] => []
  | t :: rest =>
    if seen.contains (lowerL t) then dedupFrom seen rest
    else t :: dedupFrom (seen ++ [lowerL t]) rest

/-- The claim's pipeline, parametrized by the short-token discard rule:
normalize, drop empties and stopwords, drop short ASCII tokens per the
rule, dedupe case-insensitively, cap at 4, fall back to the whole trimmed
query, escape and join. -/
def specPipeline (shortRule : List (List Char) → List Char → Bool)
    (q : List Char) : List Char :=
  let meaningful := ((splitWs (pyStrip q)).map normTok).filter
    fun n => !n.isEmpty && !stopCondB n
  let kept := meaningful.filter fun n => !shortRule meaningful n
  let terms := (dedupFrom [] kept).take 4
  let terms := if terms.isEmpty && !(pyStrip q).isEmpty then [pyStrip q] else terms
  List.intercalate ['|'] (terms.map toRgTerm)

/-- The claim's short-token rule: discard short ASCII tokens exactly when
the query has more than one meaningful token. -/
def buildPatternClaimSpec (q : List Char) : List Char :=
  specPipeline
    (fun meaningful n => decide (n.length < 2) && decide (1 < meaningful.length) && isAsciiL n)
    q

/-- The amended short-token rule, as the source implements it: discard
short ASCII tokens exactly when the stripped query is longer than 2
characters. -/
def buildPatternAmendedSpec (q : List Char) : List Char :=
  specPipeline (fun _ n => shortCondB q n) q

/-- C7 counterexample: the query `'q'` has exactly one meaningful token
(`q`), yet the source discards it — the stripped query `'q'` is 3
characters long — and falls back to the whole query, producing `'q'`
instead of the claim's word-bounded `\bq\b`. -/
theorem C7_short_token_rule_counterexample :
    buildKnowledgePattern (str "'q'") = str "'q'" ∧
      buildPatternClaimSpec (str "'q'") = str "\\bq\\b" ∧
      buildKnowledgePattern (str "'q'") ≠ buildPatternClaimSpec (str "'q'") := by
  refine ⟨by decide, by decide, by decide⟩

/-- The loop of `build_knowledge_pattern` computes: filter out empty,
stopword and short tokens, then dedupe case-insensitively and cap at 4
(minus what was already collected). -/
theorem bkpLoop_eq (q : List Char) :
    ∀ (toks : List (List Char)) (seen terms : List (List Char)),
      terms.length < 4 →
      bkpLoop q toks seen terms =
        terms ++ (dedupFrom seen ((toks.map normTok).filter
          fun n => !n.isEmpty && !stopCondB n && !shortCondB q n)).take
            (4 - terms.length) := by
  intro toks
  induction toks with
  | nil => intro seen terms _; simp [bkpLoop, dedupFrom]
  | cons tok rest ih =>
    intro seen terms hlt
    simp only [List.map_cons, List.filter_cons]
    unfold bkpLoop
    by_cases hE : (normTok tok).isEmpty = true
    · simp only [hE, if_true, Bool.not_true, Bool.false_and, Bool.false_eq_true,
        if_false]
      exact ih seen terms hlt
    · simp only [Bool.not_eq_true] at hE
      simp only [hE, Bool.false_eq_true, if_false, Bool.not_false, Bool.true_and]
      by_cases hS : stopCondB (normTok tok) = true
      · simp only [hS, if_true, Bool.not_true, Bool.false_and, Bool.false_eq_true,
          if_false]
        exact ih seen terms hlt
      · simp only [Bool.not_eq_true] at hS
        simp only [hS, Bool.false_eq_true, if_false, Bool.not_false, Bool.true_and]
        by_cases hH : shortCondB q (normTok tok) = true
        · simp only [hH, if_true, Bool.not_true, Bool.and_false, Bool.false_eq_true,
            if_false]
          exact ih seen terms hlt
        · simp only [Bool.not_eq_true] at hH
          simp only [hH, Bool.false_eq_true, if_false, Bool.not_false, Bool.and_true,
            if_true]
          unfold dedupFrom
          by_cases hseen : seen.contains (lowerL (normTok tok)) = true
          · simp only [hseen, if_true]
            exact ih seen terms hlt
          · simp only [Bool.not_eq_true] at hseen
            simp only [hseen, Bool.false_eq_true, if_false]
            have htake : ∀ (x : List Char) (l : List (List Char)),
                (x :: l).take (4 - terms.length) =
                  x :: l.take (4 - (terms ++ [x]).length) := by
              intro x l
              have h1 : 4 - terms.length = (4 - (terms ++ [x]).length) + 1 := by
                simp only [List.length_append, List.length_singleton]
                omega
              rw [h1, List.take_succ_cons]
            rw [htake]
            by_cases hcap : 4 ≤ (terms ++ [normTok tok]).length
            · rw [if_pos hcap]
              have h0 : 4 - (terms ++ [normTok tok]).length = 0 := by omega
              rw [h0, List.take_zero]
            · rw [if_neg hcap]
              rw [ih (seen ++ [lowerL (normTok tok)]) (terms ++ [normTok tok])
                (by simp only [List.length_append, List.length_singleton] at hcap ⊢
                    omega)]
              simp

/-- C7 amended: `build_knowledge_pattern` implements the claim's pipeline
with the short-token discard governed by `len(query.strip()) > 2`
(instead of "more than one meaningful token"); and on the end-to-end
example it excludes the stopwords and word-bounds the three survivors. -/
theorem C7_build_pattern_amended :
    (∀ q : List Char, buildKnowledgePattern q = buildPatternAmendedSpec q) ∧
      buildKnowledgePattern (str "What is the recommended auth mode?") =
        str "\\brecommended\\b|\\bauth\\b|\\bmode\\b" := by
  constructor
  · intro q
    unfold buildKnowledgePattern buildPatternAmendedSpec specPipeline
    dsimp only
    rw [List.filter_filter]
    have hfuse :
        ((splitWs (pyStrip q)).map normTok).filter
            (fun n => !shortCondB q n && (!n.isEmpty && !stopCondB n)) =
          ((splitWs (pyStrip q)).map normTok).filter
            (fun n => !n.isEmpty && !stopCondB n && !shortCondB q n) := by
      apply List.filter_congr
      intro n _
      cases hn : n.isEmpty <;> cases hs : stopCondB n <;>
        cases hh : shortCondB q n <;> rfl
    rw [hfuse]
    rw [bkpLoop_eq q (splitWs (pyStrip q)) [] [] (by decide)]
    simp
  · decide

/-! Component: Attachment persistence (src/agent/attachments.py)

The session directory is embedded as an association list from filenames to
byte lists (later writes shadowing earlier ones, as on a filesystem).
`_next_available_path`'s unbounded `while` loop is embedded with fuel
`|dir| + 1`, which always suffices: the candidate names
`stem_1.ext, stem_2.ext, ...` are pairwise distinct, so among `|dir| + 1`
of them one is free. -/

/-- Decimal digit character (argument taken mod the 0-9 range). -/
def digitChar (d : Nat) : Char :=
  match d with
  | 0 => '0' | 1 => '1' | 2 => '2' | 3 => '3' | 4 => '4'
  | 5 => '5' | 6 => '6' | 7 => '7' | 8 => '8' | _ => '9'

/-- Decimal rendering of a natural number (Python `f"{index}"`). -/
def natDigits (n : Nat) : List Char :=
  if _h : n < 10 then [digitChar n]
  else natDigits (n / 10) ++ [digitChar (n % 10)]
decreasing_by exact Nat.div_lt_self (by omega) (by omega)

/-- Value reconstruction used to prove `natDigits` injective. -/
def digitsVal (l : List Char) : Nat :=
  l.foldl (fun a c => a * 10 + (c.toNat - 48)) 0

theorem digitChar_toNat (d : Nat) (h : d ≤ 9) : (digitChar d).toNat = 48 + d := by
  interval_cases d <;> rfl

theorem digitsVal_append (l : List Char) (c : Char) :
    digitsVal (l ++ [c]) = digitsVal l * 10 + (c.toNat - 48) := by
  unfold digitsVal
  rw [List.foldl_append]
  rfl

theorem digitsVal_natDigits (n : Nat) : digitsVal (natDigits n) = n := by
  induction n using Nat.strong_induction_on with
  | _ n ih =>
    unfold natDigits
    split
    · rename_i h
      unfold digitsVal
      simp only [List.foldl_cons, List.foldl_nil]
      rw [digitChar_toNat n (by omega)]
      omega
    · rename_i h
      rw [digitsVal_append, ih (n / 10) (Nat.div_lt_self (by omega) (by omega)),
        digitChar_toNat (n % 10) (by omega)]
      omega

theorem natDigits_inj {a b : Nat} (h : natDigits a = natDigits b) : a = b := by
  have := congrArg digitsVal h
  rwa [digitsVal_natDigits, digitsVal_natDigits] at this

/-- A filename inside the session directory. -/
abbrev FName := List Char

/-- The session directory contents: filename to bytes. -/
abbrev DirFS := List (FName × List Nat)

/-- The `Path.exists` / read: first (most recent) entry for a name. -/
def fsLookup : DirFS → FName → Option (List Nat)
  | [], _ => none
  | (k, v) :: rest, n => if k = n then some v else fsLookup rest n

/-- The `Path.write_bytes`. -/
def fsWrite (fs : DirFS) (n : FName) (v : List Nat) : DirFS := (n, v) :: fs

/-- Split on `/` (POSIX path separator), keeping empties. -/
def splitSlash : List Char → List Char → List (List Char)
  | [], cur => [cur.reverse]
  | c :: cs, cur =>
    if c = '/' then cur.reverse :: splitSlash cs [] else splitSlash cs (c :: cur)

/-- The `pathlib`'s component tail: empty and `.` components dropped, `..`
kept. -/
def pathlibTail (s : List Char) : List (List Char) :=
  (splitSlash s []).filter fun c => !c.isEmpty && !(c = ['.'] : Bool)

/-- The `pathlib.PurePath.name`. -/
def pathlibName (s : List Char) : List Char :=
  (pathlibTail s).getLast?.getD []

/-- Index of the last occurrence of a character. -/
def lastIdxOf (c : Char) : List Char → Nat → Option Nat → Option Nat
  | [], _, best => best
  | x :: xs, i, best => lastIdxOf c xs (i + 1) (if x = c then some i else best)

/-- The `pathlib.PurePath.suffix` of a bare name: from the last dot, unless it
is leading or trailing. -/
def pathSuffix (name : List Char) : List Char :=
  match lastIdxOf '.' name 0 none with
  | some i => if 0 < i ∧ i < name.length - 1 then name.drop i else []
  | none => []

/-- The `pathlib.PurePath.stem` of a bare name. -/
def pathStem (name : List Char) : List Char :=
  match lastIdxOf '.' name 0 none with
  | some i => if 0 < i ∧ i < name.length - 1 then name.take i else name
  | none => name

/-- Characters kept by `_sanitize_filename` (`[A-Za-z0-9._-]`). -/
def isSafeChar (c : Char) : Bool :=
  ('A' ≤ c && c ≤ 'Z') || ('a' ≤ c && c ≤ 'z') || ('0' ≤ c && c ≤ '9') ||
    c = '.' || c = '_' || c = '-'

/-- The `_sanitize_filename`. -/
def sanitizeFilename (name : List Char) : List Char :=
  if (pyStrip (pathlibName name)).isEmpty then str "attachment.bin"
  else
    let safe := (pyStrip (pathlibName name)).map fun c =>
      if isSafeChar c then c else '_'
    if safe.isEmpty then str "attachment.bin" else safe

/-- Python `str.lstrip(".")`. -/
def lstripDots (l : List Char) : List Char := l.dropWhile fun c => c = '.'

/-- The `Path(safe_name).suffix.lower().lstrip(".")`. -/
def extOf (safe : List Char) : List Char :=
  lstripDots (lowerL (pathSuffix (pathlibName safe)))

/-- The numbered candidate `f"{stem}_{index}{suffix}"`. -/
def candName (stem sfx : List Char) (i : Nat) : FName :=
  stem ++ ('_' :: (natDigits i ++ sfx))

/-- The `while True` loop of `_next_available_path`, with fuel. -/
def navGo (fs : DirFS) (stem sfx : List Char) : Nat → Nat → FName
  | 0, i => candName stem sfx i
  | fuel + 1, i =>
    if fsLookup fs (candName stem sfx i) = none then candName stem sfx i
    else navGo fs stem sfx fuel (i + 1)

/-- The `_next_available_path`. -/
def nextAvailablePath (fs : DirFS) (filename : FName) : FName :=
  if fsLookup fs filename = none then filename
  else navGo fs (pathStem (pathlibName filename)) (pathSuffix (pathlibName filename))
    (fs.length + 1) 1

theorem candName_inj (stem sfx : List Char) {i j : Nat}
    (h : candName stem sfx i = candName stem sfx j) : i = j := by
  unfold candName at h
  have h1 : '_' :: (natDigits i ++ sfx) = '_' :: (natDigits j ++ sfx) :=
    List.append_cancel_left h
  have h2 : natDigits i ++ sfx = natDigits j ++ sfx := by injection h1
  exact natDigits_inj (List.append_cancel_right h2)

theorem navGo_free (fs : DirFS) (stem sfx : List Char) :
    ∀ (fuel i : Nat),
      (∃ k, k < fuel ∧ fsLookup fs (candName stem sfx (i + k)) = none) →
      fsLookup fs (navGo fs stem sfx fuel i) = none := by
  intro fuel
  induction fuel with
  | zero =>
    intro i ⟨k, hk, _⟩
    omega
  | succ fuel ih =>
    intro i ⟨k, hk, hfree⟩
    unfold navGo
    by_cases h0 : fsLookup fs (candName stem sfx i) = none
    · rw [if_pos h0]; exact h0
    · rw [if_neg h0]
      apply ih
      cases k with
      | zero => simp only [Nat.add_zero] at hfree; exact absurd hfree h0
      | succ k' =>
        refine ⟨k', by omega, ?_⟩
        have : i + (k' + 1) = i + 1 + k' := by omega
        rwa [this] at hfree

theorem fsLookup_ne_none_mem (fs : DirFS) (n : FName)
    (h : fsLookup fs n ≠ none) : n ∈ fs.map Prod.fst := by
  induction fs with
  | nil => exact absurd rfl h
  | cons e rest ih =>
    unfold fsLookup at h
    by_cases he : e.1 = n
    · simp [he]
    · rw [if_neg he] at h
      simp [ih h]

theorem exists_free_cand (fs : DirFS) (stem sfx : List Char) :
    ∃ k, k < fs.length + 1 ∧ fsLookup fs (candName stem sfx (1 + k)) = none := by
  by_contra hcon
  push_neg at hcon
  have hinj : Function.Injective fun k => candName stem sfx (1 + k) := by
    intro a b hab
    have := candName_inj stem sfx hab
    omega
  have hnodup : ((List.range (fs.length + 1)).map
      fun k => candName stem sfx (1 + k)).Nodup :=
    (List.nodup_range _).map hinj
  have hsub : ((List.range (fs.length + 1)).map
      fun k => candName stem sfx (1 + k)) ⊆ fs.map Prod.fst := by
    intro x hx
    simp only [List.mem_map, List.mem_range] at hx
    obtain ⟨k, hk, rfl⟩ := hx
    exact fsLookup_ne_none_mem fs _ (hcon k hk)
  have hle := (hnodup.subperm hsub).length_le
  simp at hle

/-- The `_next_available_path` always returns a name not present in the
directory. -/
theorem nextAvailablePath_free (fs : DirFS) (filename : FName) :
    fsLookup fs (nextAvailablePath fs filename) = none := by
  unfold nextAvailablePath
  by_cases h : fsLookup fs filename = none
  · rw [if_pos h]; exact h
  · rw [if_neg h]
    apply navGo_free
    obtain ⟨k, hk, hfree⟩ := exists_free_cand fs
      (pathStem (pathlibName filename)) (pathSuffix (pathlibName filename))
    exact ⟨k, hk, hfree⟩

/-- A file-like upload: display name and payload bytes. -/
structure Upload where
  name : List Char
  payload : List Nat

/-- Manifest entry (`StoredAttachment`). -/
structure StoredAttachment where
  filename : List Char
  relativePath : List Char
  sizeBytes : Nat
deriving DecidableEq

/-- The per-file loop of `persist_attachments`: skip files with a
disallowed extension or oversize payload (collecting a warning), else
write the payload at the next available path and record a manifest entry
whose relative path prefixes the session directory's project-relative
path. -/
def persistLoop (relPref : List Char) (allowedNorm : List (List Char))
    (maxBytes : Nat) :
    List Upload → DirFS → List StoredAttachment × List (List Char) × DirFS
  | [], fs => ([], [], fs)
  | u :: rest, fs =>
    if !(allowedNorm.contains (extOf (sanitizeFilename (pathlibName u.name)))) then
      ((persistLoop relPref allowedNorm maxBytes rest fs).1,
       (str "Skipped `" ++ pathlibName u.name ++ str "`: unsupported extension.") ::
         (persistLoop relPref allowedNorm maxBytes rest fs).2.1,
       (persistLoop relPref allowedNorm maxBytes rest fs).2.2)
    else if maxBytes < u.payload.length then
      ((persistLoop relPref allowedNorm maxBytes rest fs).1,
       (str "Skipped `" ++ pathlibName u.name ++
          str "`: file size exceeds configured limit.") ::
         (persistLoop relPref allowedNorm maxBytes rest fs).2.1,
       (persistLoop relPref allowedNorm maxBytes rest fs).2.2)
    else
      let dest := nextAvailablePath fs (sanitizeFilename (pathlibName u.name))
      let fs1 := fsWrite fs dest u.payload
      (⟨pathlibName u.name, relPref ++ dest, u.payload.length⟩ ::
         (persistLoop relPref allowedNorm maxBytes rest fs1).1,
       (persistLoop relPref allowedNorm maxBytes rest fs1).2.1,
       (persistLoop relPref allowedNorm maxBytes rest fs1).2.2)

/-- The `persist_attachments`: manifest entries, warnings, and the final
directory state (the allow-list is normalized as in the source:
`ext.lower().lstrip(".")`). -/
def persistAttachments (uploads : List Upload) (fs : DirFS)
    (relPref : List Char) (allowedExts : List (List Char)) (maxBytes : Nat) :
    List StoredAttachment × List (List Char) × DirFS :=
  persistLoop relPref (allowedExts.map fun e => lstripDots (lowerL e)) maxBytes
    uploads fs

/-- C9: one `persist_attachments` call with two uploads whose names
sanitize to the same filename, both with an allowed extension and size
within the limit, stores them under two distinct relative paths, and the
bytes stored at each path are exactly the corresponding upload's
payload. -/
theorem C9_duplicate_names_distinct_paths
    (fs0 : DirFS) (u1 u2 : Upload) (relPref : List Char)
    (allowedExts : List (List Char)) (maxBytes : Nat)
    (hsame : sanitizeFilename (pathlibName u2.name) =
      sanitizeFilename (pathlibName u1.name))
    (hext : (allowedExts.map fun e => lstripDots (lowerL e)).contains
      (extOf (sanitizeFilename (pathlibName u1.name))) = true)
    (hsz1 : u1.payload.length ≤ maxBytes)
    (hsz2 : u2.payload.length ≤ maxBytes) :
    ∃ d1 d2 : FName,
      (persistAttachments [u1, u2] fs0 relPref allowedExts maxBytes).1 =
        [⟨pathlibName u1.name, relPref ++ d1, u1.payload.length⟩,
         ⟨pathlibName u2.name, relPref ++ d2, u2.payload.length⟩] ∧
      relPref ++ d1 ≠ relPref ++ d2 ∧
      fsLookup (persistAttachments [u1, u2] fs0 relPref allowedExts maxBytes).2.2
        d1 = some u1.payload ∧
      fsLookup (persistAttachments [u1, u2] fs0 relPref allowedExts maxBytes).2.2
        d2 = some u2.payload := by
  have hsz1' : ¬ maxBytes < u1.payload.length := by omega
  have hsz2' : ¬ maxBytes < u2.payload.length := by omega
  set safe := sanitizeFilename (pathlibName u1.name) with hsafe
  set d1 := nextAvailablePath fs0 safe with hd1
  have hfree1 : fsLookup fs0 d1 = none := nextAvailablePath_free fs0 safe
  set fs1 := fsWrite fs0 d1 u1.payload with hfs1
  set d2 := nextAvailablePath fs1 safe with hd2
  have hfree2 : fsLookup fs1 d2 = none := nextAvailablePath_free fs1 safe
  have hmem1 : fsLookup fs1 d1 = some u1.payload := by
    rw [hfs1]
    unfold fsWrite fsLookup
    rw [if_pos rfl]
  have hne : d1 ≠ d2 := by
    intro heq
    rw [← heq] at hfree2
    rw [hmem1] at hfree2
    exact Option.noConfusion hfree2
  have hstep : persistAttachments [u1, u2] fs0 relPref allowedExts maxBytes =
      ([⟨pathlibName u1.name, relPref ++ d1, u1.payload.length⟩,
        ⟨pathlibName u2.name, relPref ++ d2, u2.payload.length⟩],
       [], fsWrite fs1 d2 u2.payload) := by
    simp only [persistAttachments, persistLoop, ← hsafe, hsame, hext,
      Bool.not_true, Bool.false_eq_true, if_false, if_neg hsz1', if_neg hsz2',
      ← hd1, ← hfs1, ← hd2]
  refine ⟨d1, d2, ?_, ?_, ?_, ?_⟩
  · rw [hstep]
  · intro habs
    exact hne (List.append_cancel_left habs)
  · rw [hstep]
    show fsLookup (fsWrite fs1 d2 u2.payload) d1 = some u1.payload
    unfold fsWrite fsLookup
    rw [if_neg (fun h => hne h.symm)]
    exact hmem1
  · rw [hstep]
    show fsLookup (fsWrite fs1 d2 u2.payload) d2 = some u2.payload
    unfold fsWrite fsLookup
    rw [if_pos rfl]

/-- Witness for C9: two uploads both named `a b.txt` (sanitizing to
`a_b.txt`) with distinct payloads, an empty initial directory, allow-list
`[".TXT"]` and limit 10. -/
theorem C9_duplicate_names_distinct_paths_witness :
    ∃ d1 d2 : FName,
      (persistAttachments
        [⟨str "a b.txt", [1, 2]⟩, ⟨str "a b.txt", [3]⟩] [] (str "uploads/s1/")
        [str ".TXT"] 10).1 =
        [⟨pathlibName (str "a b.txt"), str "uploads/s1/" ++ d1, 2⟩,
         ⟨pathlibName (str "a b.txt"), str "uploads/s1/" ++ d2, 1⟩] ∧
      str "uploads/s1/" ++ d1 ≠ str "uploads/s1/" ++ d2 ∧
      fsLookup (persistAttachments
        [⟨str "a b.txt", [1, 2]⟩, ⟨str "a b.txt", [3]⟩] [] (str "uploads/s1/")
        [str ".TXT"] 10).2.2 d1 = some [1, 2] ∧
      fsLookup (persistAttachments
        [⟨str "a b.txt", [1, 2]⟩, ⟨str "a b.txt", [3]⟩] [] (str "uploads/s1/")
        [str ".TXT"] 10).2.2 d2 = some [3] :=
  C9_duplicate_names_distinct_paths [] ⟨str "a b.txt", [1, 2]⟩
    ⟨str "a b.txt", [3]⟩ (str "uploads/s1/") [str ".TXT"] 10
    (by decide) (by decide) (by decide) (by decide)

/-! Component: Sanitizer idempotence analysis (C10)

Generic facts about the `re.sub` scanner, then the key-pass-specific
argument that one substitution pass leaves no further key matches. -/

/-- A text none of whose positions match is left unchanged (any fuel). -/
theorem reSubF_eq_self (m : List Char → Option Nat) (repl : List Char → List Char) :
    ∀ (fuel : Nat) (s : List Char), (∀ i, m (s.drop i) = none) →
      reSubF m repl fuel s = s := by
  intro fuel
  induction fuel with
  | zero => intro s _; rfl
  | succ fuel ih =>
    intro s hclean
    cases s with
    | nil => rfl
    | cons c cs =>
      unfold reSubF
      have h0 := hclean 0
      simp only [List.drop_zero] at h0
      rw [h0]
      have : ∀ i, m (cs.drop i) = none := by
        intro i
        have := hclean (i + 1)
        simpa using this
      rw [ih cs this]

/-- The scanner is fuel-invariant once the fuel covers the text length
(matches being nonempty). -/
theorem reSubF_fuel_inv (m : List Char → Option Nat) (repl : List Char → List Char)
    (hm : ∀ s L, m s = some L → 0 < L) :
    ∀ (f1 f2 : Nat) (s : List Char), s.length ≤ f1 → s.length ≤ f2 →
      reSubF m repl f1 s = reSubF m repl f2 s := by
  intro f1
  induction f1 with
  | zero =>
    intro f2 s h1 _
    have : s = [] := List.length_eq_zero.mp (by omega)
    subst this
    cases f2 <;> rfl
  | succ f1 ih =>
    intro f2 s h1 h2
    cases s with
    | nil => cases f2 <;> rfl
    | cons c cs =>
      cases f2 with
      | zero => simp at h2
      | succ f2 =>
        unfold reSubF
        cases hm' : m (c :: cs) with
        | none =>
          dsimp only
          rw [ih f2 cs (by simpa using h1) (by simpa using h2)]
        | some L =>
          have hL := hm _ _ hm'
          have hlen : ((c :: cs).drop L).length ≤ f1 := by
            simp only [List.length_drop, List.length_cons]
            simp only [List.length_cons] at h1
            omega
          have hlen2 : ((c :: cs).drop L).length ≤ f2 := by
            simp only [List.length_drop, List.length_cons]
            simp only [List.length_cons] at h2
            omega
          dsimp only
          rw [ih f2 _ hlen hlen2]

/-- One-step recurrence for `reSub` on a cons cell. -/
theorem reSub_cons (m : List Char → Option Nat) (repl : List Char → List Char)
    (hm : ∀ s L, m s = some L → 0 < L) (c : Char) (cs : List Char) :
    reSub m repl (c :: cs) =
      match m (c :: cs) with
      | some L => repl ((c :: cs).take L) ++ reSub m repl ((c :: cs).drop L)
      | none => c :: reSub m repl cs := by
  show reSubF m repl (cs.length + 1) (c :: cs) = _
  unfold reSubF
  cases hm' : m (c :: cs) with
  | none => rfl
  | some L =>
    have hL := hm _ _ hm'
    dsimp only
    rw [reSubF_fuel_inv m repl hm cs.length ((c :: cs).drop L).length ((c :: cs).drop L)
      (by simp only [List.length_drop, List.length_cons]; omega) (le_refl _)]
    rfl

/-- Decomposition at the first matching position: everything before it is
copied verbatim, the match is replaced, and scanning resumes after it. -/
theorem reSub_first_match (m : List Char → Option Nat) (repl : List Char → List Char)
    (hm : ∀ s L, m s = some L → 0 < L) (hnil : m [] = none) :
    ∀ (j : Nat) (s : List Char) (L : Nat),
      (∀ i, i < j → m (s.drop i) = none) → m (s.drop j) = some L →
      reSub m repl s =
        s.take j ++ (repl ((s.drop j).take L) ++ reSub m repl ((s.drop j).drop L)) := by
  intro j
  induction j with
  | zero =>
    intro s L _ hj
    simp only [List.drop_zero] at hj ⊢
    cases s with
    | nil => rw [hnil] at hj; exact Option.noConfusion hj
    | cons c cs =>
      rw [reSub_cons m repl hm c cs, hj]
      simp
  | succ j ih =>
    intro s L hlt hj
    cases s with
    | nil => rw [List.drop_nil, hnil] at hj; exact Option.noConfusion hj
    | cons c cs =>
      have h0 := hlt 0 (by omega)
      simp only [List.drop_zero] at h0
      rw [reSub_cons m repl hm c cs, h0]
      rw [ih cs L (fun i hi => by simpa using hlt (i + 1) (by omega))
        (by simpa using hj)]
      simp

/-- Every character of the scanner output comes from the input or from a
replacement. -/
theorem reSubF_chars (m : List Char → Option Nat) (repl : List Char → List Char) :
    ∀ (fuel : Nat) (s : List Char) (c : Char), c ∈ reSubF m repl fuel s →
      c ∈ s ∨ ∃ t, c ∈ repl t := by
  intro fuel
  induction fuel with
  | zero => intro s c hc; exact Or.inl hc
  | succ fuel ih =>
    intro s c hc
    cases s with
    | nil => simp [reSubF] at hc
    | cons a cs =>
      unfold reSubF at hc
      cases hm' : m (a :: cs) with
      | some L =>
        rw [hm'] at hc
        rcases List.mem_append.mp hc with h | h
        · exact Or.inr ⟨_, h⟩
        · rcases ih _ c h with h2 | h2
          · exact Or.inl (List.drop_subset _ _ h2)
          · exact Or.inr h2
      | none =>
        rw [hm'] at hc
        rcases List.mem_cons.mp hc with h | h
        · exact Or.inl (by simp [h])
        · rcases ih cs c h with h2 | h2
          · exact Or.inl (by simp [h2])
          · exact Or.inr h2

theorem countLeading_append (p : Char → Bool) (a b : List Char) :
    countLeading p (a ++ b) =
      if a.all p then a.length + countLeading p b else countLeading p a := by
  induction a with
  | nil => simp [countLeading]
  | cons x xs ih =>
    simp only [List.cons_append, countLeading, List.all_cons, List.append_eq]
    by_cases hx : p x = true
    · rw [if_pos hx, if_pos hx, ih]
      by_cases hxs : xs.all p = true
      · rw [if_pos hxs]
        simp only [hx, Bool.true_and, hxs, if_true, List.length_cons]
        omega
      · simp only [Bool.not_eq_true] at hxs
        rw [if_neg (by simp [hxs])]
        simp only [hx, Bool.true_and, hxs, Bool.false_eq_true, if_false]
    · simp only [Bool.not_eq_true] at hx
      rw [if_neg (by simp [hx]), if_neg (by simp [hx]),
        if_neg (by simp [hx])]

theorem countLeading_take_le (p : Char → Bool) :
    ∀ (l : List Char) (n : Nat), countLeading p (l.take n) ≤ countLeading p l := by
  intro l
  induction l with
  | nil => intro n; simp
  | cons x xs ih =>
    intro n
    cases n with
    | zero => simp [countLeading]
    | succ n =>
      simp only [List.take_succ_cons, countLeading]
      by_cases hx : p x = true
      · rw [if_pos hx, if_pos hx]
        exact Nat.succ_le_succ (ih n)
      · rw [if_neg hx, if_neg hx]

theorem all_take_le_countLeading (p : Char → Bool) :
    ∀ (l : List Char) (n : Nat), (l.take n).all p = true →
      (l.take n).length ≤ countLeading p l := by
  intro l
  induction l with
  | nil => intro n _; simp
  | cons x xs ih =>
    intro n hall
    cases n with
    | zero => simp
    | succ n =>
      simp only [List.take_succ_cons, List.all_cons, Bool.and_eq_true] at hall
      simp only [List.take_succ_cons, List.length_cons, countLeading,
        if_pos hall.1]
      exact Nat.succ_le_succ (ih n hall.2)


theorem isPrefixOf_iff (a b : List Char) : a.isPrefixOf b = true ↔ a <+: b :=
  List.isPrefixOf_iff_prefix

theorem prefix_iff_take (a b : List Char) : a <+: b ↔ a = b.take a.length :=
  List.prefix_iff_eq_take

theorem matchKey_nil : matchKey [] = none := rfl

theorem matchKey_pos {s : List Char} {L : Nat} (h : matchKey s = some L) : 0 < L := by
  unfold matchKey at h
  split at h
  · split at h
    · injection h with h
      omega
    · exact Option.noConfusion h
  · exact Option.noConfusion h

theorem matchKey_head_ne {a : Char} (y : List Char) (ha : a ≠ 's') :
    matchKey (a :: y) = none := by
  unfold matchKey
  have h2 : litKey.isPrefixOf (a :: y) = (('s' == a) && (str "k-ant-").isPrefixOf y) :=
    rfl
  have hsa : ('s' == a) = false := by
    cases hq : ('s' == a)
    · rfl
    · exact absurd (beq_iff_eq.mp hq).symm ha
  rw [h2, hsa, Bool.false_and]
  simp

theorem matchKey_none_count {s : List Char} (h : matchKey s = none)
    (hp : litKey.isPrefixOf s = true) :
    countLeading isKChar (s.drop 7) < 20 := by
  unfold matchKey at h
  rw [hp, if_pos rfl] at h
  by_contra hc
  rw [if_pos (by omega)] at h
  exact Option.noConfusion h

theorem matchKey_some_prefix {s : List Char} {L : Nat} (h : matchKey s = some L) :
    litKey.isPrefixOf s = true := by
  unfold matchKey at h
  by_cases hp : litKey.isPrefixOf s = true
  · exact hp
  · rw [if_neg (by simpa using hp)] at h
    exact Option.noConfusion h

theorem matchKey_some_length {s : List Char} {L : Nat} (h : matchKey s = some L) :
    7 ≤ s.length := by
  have hp := matchKey_some_prefix h
  have := (isPrefixOf_iff _ _).mp hp
  have hle := this.length_le
  simpa using hle

/-- Prefix by `litKey` only depends on the first 7 characters. -/
theorem litKey_isPrefixOf_congr {l l' : List Char} (h : l.take 7 = l'.take 7) :
    litKey.isPrefixOf l = litKey.isPrefixOf l' := by
  have hlen : litKey.length = 7 := rfl
  cases hq : litKey.isPrefixOf l'
  · cases hq2 : litKey.isPrefixOf l
    · rfl
    · exfalso
      have hpre := (isPrefixOf_iff _ _).mp hq2
      rw [prefix_iff_take _ _, hlen, h, ← hlen, ← prefix_iff_take _ _] at hpre
      rw [(isPrefixOf_iff _ _).mpr hpre] at hq
      exact Bool.noConfusion hq
  · have hpre := (isPrefixOf_iff _ _).mp hq
    rw [prefix_iff_take _ _, hlen, ← h, ← hlen, ← prefix_iff_take _ _] at hpre
    exact (isPrefixOf_iff _ _).mpr hpre

/-- Inserting the replacement after a verbatim-copied prefix of a
non-matching text cannot create a key match at position 0: the bracket of
`[REDACTED_API_KEY]` either breaks the literal or caps the class run
below 20. -/
theorem key_crux (u : List Char) (j L : Nat) (X : List Char)
    (h0 : matchKey u = none) (hj : matchKey (u.drop j) = some L) :
    matchKey (u.take j ++ (replKey ++ X)) = none := by
  have hj7 : 7 ≤ (u.drop j).length := matchKey_some_length hj
  have hju : j + 7 ≤ u.length := by
    simp only [List.length_drop] at hj7
    omega
  have hTlen : (u.take j).length = j := by
    simp only [List.length_take]
    omega
  by_cases hj6 : j < 7
  · have hget : (u.take j ++ (replKey ++ X))[j]? = some '[' := by
      rw [List.getElem?_append_right (by omega : (u.take j).length ≤ j), hTlen]
      simp
      rfl
    cases hp : litKey.isPrefixOf (u.take j ++ (replKey ++ X)) with
    | true =>
      exfalso
      obtain ⟨t, ht⟩ := (isPrefixOf_iff _ _).mp hp
      have hlit : litKey[j]? = some '[' := by
        have := congrArg (fun l => l[j]?) ht
        simp only at this
        rw [List.getElem?_append, if_pos (by simpa using hj6)] at this
        rw [this, hget]
      have hfact : ∀ p, p < 7 → litKey[p]? ≠ some '[' := by decide
      exact hfact j hj6 hlit
    | false =>
      unfold matchKey
      rw [hp]
      simp
  · push_neg at hj6
    have htake7 : (u.take j ++ (replKey ++ X)).take 7 = u.take 7 := by
      rw [List.take_append_of_le_length (by omega), List.take_take]
      congr 1
      omega
    have hpeq := litKey_isPrefixOf_congr htake7
    cases hp : litKey.isPrefixOf u with
    | false =>
      unfold matchKey
      rw [hpeq, hp]
      simp
    | true =>
      have hcount := matchKey_none_count h0 hp
      have hdrop : (u.take j ++ (replKey ++ X)).drop 7 =
          (u.drop 7).take (j - 7) ++ (replKey ++ X) := by
        rw [List.drop_append_of_le_length (by omega), List.drop_take]
      have hR0 : countLeading isKChar (replKey ++ X) = 0 := by
        rw [countLeading_append]
        rw [if_neg (by decide)]
        decide
      have hlt : countLeading isKChar ((u.take j ++ (replKey ++ X)).drop 7) < 20 := by
        rw [hdrop, countLeading_append]
        by_cases hall : ((u.drop 7).take (j - 7)).all isKChar = true
        · rw [if_pos hall, hR0]
          have := all_take_le_countLeading isKChar (u.drop 7) (j - 7) hall
          omega
        · rw [if_neg hall]
          have := countLeading_take_le isKChar (u.drop 7) (j - 7)
          omega
      unfold matchKey
      rw [hpeq, hp, if_pos rfl, if_neg (by omega)]

/-- After one key-substitution pass, no position of the output matches the
key pattern any more. -/
theorem subKey_clean_aux :
    ∀ (n : Nat) (t : List Char), t.length ≤ n →
      ∀ i, matchKey ((reSub matchKey (fun _ => replKey) t).drop i) = none := by
  intro n
  induction n with
  | zero =>
    intro t ht i
    have : t = [] := List.length_eq_zero.mp (by omega)
    subst this
    show matchKey ((reSubF _ _ 0 []).drop i) = none
    simp [reSubF, matchKey_nil]
  | succ n ih =>
    intro t ht i
    by_cases hall : ∀ k, matchKey (t.drop k) = none
    · unfold reSub
      rw [reSubF_eq_self _ _ _ _ hall]
      exact hall i
    · push_neg at hall
      have hjne := Nat.find_spec hall
      have hmin : ∀ k, k < Nat.find hall → matchKey (t.drop k) = none := by
        intro k hk
        have := Nat.find_min hall hk
        simpa using this
      obtain ⟨L, hj⟩ : ∃ L, matchKey (t.drop (Nat.find hall)) = some L := by
        cases hmk : matchKey (t.drop (Nat.find hall)) with
        | none => exact absurd hmk hjne
        | some L => exact ⟨L, rfl⟩
      have hdecomp := reSub_first_match matchKey (fun _ => replKey)
        (fun _ _ h => matchKey_pos h) matchKey_nil (Nat.find hall) t L hmin hj
      rw [hdecomp]
      dsimp only
      have hj7 : 7 ≤ (t.drop (Nat.find hall)).length := matchKey_some_length hj
      have hju : Nat.find hall + 7 ≤ t.length := by
        simp only [List.length_drop] at hj7
        omega
      have hTlen : (t.take (Nat.find hall)).length = Nat.find hall := by
        simp only [List.length_take]
        omega
      have hRlen : replKey.length = 18 := rfl
      by_cases hi1 : i < Nat.find hall
      · rw [List.drop_append_of_le_length (by omega), List.drop_take]
        refine key_crux (t.drop i) (Nat.find hall - i) L _ (hmin i hi1) ?_
        rw [List.drop_drop]
        have : i + (Nat.find hall - i) = Nat.find hall := by omega
        rw [this]
        exact hj
      · push_neg at hi1
        by_cases hi2 : i < Nat.find hall + 18
        · have hidx : i = (t.take (Nat.find hall)).length + (i - Nat.find hall) := by
            omega
          rw [hidx, List.drop_append, List.drop_append_of_le_length (by omega)]
          cases hd : replKey.drop (i - Nat.find hall) with
          | nil =>
            exfalso
            have := congrArg List.length hd
            simp only [List.length_drop, hRlen, List.length_nil] at this
            omega
          | cons d ds =>
            rw [List.cons_append]
            apply matchKey_head_ne
            intro heq
            have hfact : ∀ k, k < 18 → (replKey.drop k).head? ≠ some 's' := by decide
            apply hfact (i - Nat.find hall) (by omega)
            rw [hd, heq]
            rfl
        · push_neg at hi2
          have hidx : i = (t.take (Nat.find hall)).length +
              (replKey.length + (i - Nat.find hall - 18)) := by
            rw [hTlen, hRlen]
            omega
          rw [hidx, List.drop_append, List.drop_append]
          apply ih ((t.drop (Nat.find hall)).drop L)
          · have hL := matchKey_pos hj
            simp only [List.length_drop]
            omega


theorem subKey_clean (t : List Char) :
    ∀ i, matchKey ((subKey t).drop i) = none :=
  subKey_clean_aux t.length t (le_refl _)

/-- The API-key pass is idempotent. -/
theorem subKey_idem (t : List Char) : subKey (subKey t) = subKey t := by
  show reSub matchKey (fun _ => replKey) (subKey t) = subKey t
  unfold reSub
  exact reSubF_eq_self _ _ _ _ (subKey_clean t)

theorem matchInternal_some_slash {s : List Char} {L : Nat}
    (h : matchInternal s = some L) : '/' ∈ s := by
  have hp : litInternal.isPrefixOf s = true := by
    unfold matchInternal at h
    by_cases hp : litInternal.isPrefixOf s = true
    · exact hp
    · rw [if_neg (by simpa using hp)] at h
      exact Option.noConfusion h
  obtain ⟨t, ht⟩ := (isPrefixOf_iff _ _).mp hp
  rw [← ht]
  have : '/' ∈ litInternal := by decide
  exact List.mem_append.mpr (Or.inl this)

theorem matchAbs_some_slash {s : List Char} {L : Nat}
    (h : matchAbs s = some L) : '/' ∈ s := by
  unfold matchAbs at h
  cases hh : (absRoots.filter (fun p => p.isPrefixOf s)).head? with
  | none => rw [hh] at h; exact Option.noConfusion h
  | some p =>
    have hmem : p ∈ absRoots.filter (fun p => p.isPrefixOf s) := by
      cases hl : absRoots.filter (fun p => p.isPrefixOf s) with
      | nil => rw [hl] at hh; exact Option.noConfusion hh
      | cons q rest =>
        rw [hl] at hh
        injection hh with hh
        simp [hl, hh]
    have hpe := List.mem_filter.mp hmem
    obtain ⟨t, ht⟩ := (isPrefixOf_iff _ _).mp hpe.2
    have hslash : '/' ∈ p := by
      have : ∀ q ∈ absRoots, '/' ∈ q := by decide
      exact this p hpe.1
    rw [← ht]
    exact List.mem_append.mpr (Or.inl hslash)

theorem subInternal_of_noSlash (t : List Char) (h : '/' ∉ t) :
    subInternal t = t := by
  show reSub matchInternal (fun _ => replInternal) t = t
  unfold reSub
  apply reSubF_eq_self
  intro i
  cases hm : matchInternal (t.drop i) with
  | none => rfl
  | some L =>
    exact absurd (List.drop_subset i t (matchInternal_some_slash hm)) h

theorem subAbs_of_noSlash (root home t : List Char) (h : '/' ∉ t) :
    subAbs root home t = t := by
  show reSub matchAbs (redactAbs root home) t = t
  unfold reSub
  apply reSubF_eq_self
  intro i
  cases hm : matchAbs (t.drop i) with
  | none => rfl
  | some L =>
    exact absurd (List.drop_subset i t (matchAbs_some_slash hm)) h

theorem subKey_noSlash (t : List Char) (h : '/' ∉ t) : '/' ∉ subKey t := by
  intro hc
  rcases reSubF_chars matchKey (fun _ => replKey) t.length t '/' hc with h2 | ⟨_, h2⟩
  · exact h h2
  · have : '/' ∉ replKey := by decide
    exact this h2

/-- On a slash-free text, `sanitize` coincides with its key pass alone. -/
theorem sanitize_noSlash_eq_subKey (root home t : List Char) (h : '/' ∉ t) :
    sanitize root home t = subKey t := by
  unfold sanitize
  rw [subInternal_of_noSlash _ (subKey_noSlash t h),
    subAbs_of_noSlash _ _ _ (subKey_noSlash t h)]

/-- C10 counterexample: with working directory `/home/u/p` and home
`/home/u`, sanitizing `./home/u/p/claude/projects/x` rewrites the
absolute path to its project-relative suffix, gluing the leading dot into
`.claude/projects/x`; a second application then redacts that as an
internal path.  `sanitize` is not idempotent. -/
theorem C10_sanitize_not_idempotent_counterexample :
    sanitize (str "/home/u/p") (str "/home/u") (str "./home/u/p/claude/projects/x") =
      str ".claude/projects/x" ∧
    sanitize (str "/home/u/p") (str "/home/u")
        (sanitize (str "/home/u/p") (str "/home/u") (str "./home/u/p/claude/projects/x")) =
      str "[internal-path]" ∧
    sanitize (str "/home/u/p") (str "/home/u")
        (sanitize (str "/home/u/p") (str "/home/u") (str "./home/u/p/claude/projects/x")) ≠
      sanitize (str "/home/u/p") (str "/home/u") (str "./home/u/p/claude/projects/x") := by
  refine ⟨by decide, by decide, by decide⟩

/-- C10 amended: on every text containing no `/` character — where the
internal-path and absolute-path passes are inert — `sanitize` is
idempotent: the API-key pass never leaves or creates a further key match.
Full idempotence fails (see the counterexample): a project-relative
rewrite can expose a `.claude/projects/` run that a second application
redacts. -/
theorem C10_sanitize_idempotent_amended (root home t : List Char)
    (h : '/' ∉ t) :
    sanitize root home (sanitize root home t) = sanitize root home t := by
  rw [sanitize_noSlash_eq_subKey root home t h,
    sanitize_noSlash_eq_subKey root home (subKey t) (subKey_noSlash t h)]
  exact subKey_idem t

/-- Witness for C10 amended on a slash-free text that the key pass does
rewrite. -/
theorem C10_sanitize_idempotent_amended_witness :
    sanitize (str "/home/u/p") (str "/home/u")
        (sanitize (str "/home/u/p") (str "/home/u")
          (str "key: sk-ant-REDACTED")) =
      sanitize (str "/home/u/p") (str "/home/u")
        (str "key: sk-ant-REDACTED") :=
  C10_sanitize_idempotent_amended (str "/home/u/p") (str "/home/u")
    (str "key: sk-ant-REDACTED") (by decide)
